import Mathlib

/-!
Verification of the yamc fair locking primitives.

Part 1 models the ticket lock of fair_mutex.hpp (yamc::fair::detail::mutex_base,
recursive_mutex_base, and timed_mutex::do_try_lockwait).
Part 2 models the fair reader/writer engine of fair_shared_mutex.hpp
(yamc::fair::detail::shared_mutex_base).

Counters are modelled as unbounded naturals: the source uses std::size_t with
only increment and (in)equality tests, so behaviour below 2^64 operations is
identical and no overflow-relevant arithmetic occurs.
-/

namespace Yamc

/-! ### Ticket lock: fair_mutex.hpp, class mutex_base

The shared state is the pair of counters next_ (tickets issued) and curr_
(tickets served). -/

/-- The two counters of mutex_base: next_ (issued) and curr_ (served). -/
structure MutexBase where
  next_ : Nat
  curr_ : Nat
deriving DecidableEq

/-- Ghost-instrumented ticket-lock state: the code state (next_, curr_)
together with the list of outstanding tickets (captured by lock()/try_lock()
and not yet released by the matching unlock()), in arrival order. The code
itself stores no such list; it is bookkeeping for stating the invariants. -/
structure TicketSys where
  next_ : Nat
  curr_ : Nat
  tickets : List Nat
deriving DecidableEq

/-- mutex_base::lock(), the enqueue step: request = next_++; the caller then
waits until curr_ == request. The captured ticket is recorded as outstanding. -/
def lock_enqueue (s : TicketSys) : TicketSys :=
  { next_ := s.next_ + 1, curr_ := s.curr_, tickets := s.tickets ++ [s.next_] }

/-- mutex_base::try_lock(): fails if next_ != curr_, otherwise ++next_ and the
caller holds (its ticket, the old next_, becomes outstanding). -/
def ticket_try_lock (s : TicketSys) : Bool × TicketSys :=
  if s.next_ ≠ s.curr_ then (false, s)
  else (true, { next_ := s.next_ + 1, curr_ := s.curr_, tickets := s.tickets ++ [s.next_] })

/-- mutex_base::unlock(): ++curr_; notify_all. The usage contract says the
caller made a matching prior acquisition, i.e. it is the admitted waiter, the
one whose ticket equals curr_; that ticket stops being outstanding. -/
def ticket_unlock (s : TicketSys) : TicketSys :=
  { next_ := s.next_, curr_ := s.curr_ + 1, tickets := s.tickets.erase s.curr_ }

/-- The wait predicate of the loop in mutex_base::lock():
while (request != curr_) cv_.wait(lk); -- a waiter holding ticket t proceeds
(is admitted) exactly when this returns true. -/
def waitAdmitted (s : TicketSys) (t : Nat) : Bool :=
  t == s.curr_

/-- States reachable from the initial state next_ = curr_ = 0 by lock()
enqueues, try_lock() calls, and contract-respecting unlock() calls. -/
inductive Reach : TicketSys → Prop where
  | init : Reach ⟨0, 0, []⟩
  | lock_enq {s} : Reach s → Reach (lock_enqueue s)
  | try_step {s} : Reach s → Reach (ticket_try_lock s).2
  | unlock_step {s} : Reach s → s.curr_ ∈ s.tickets → Reach (ticket_unlock s)

/-- Helper: appending the next value to an interval extends the interval. -/
theorem range'_snoc (c n : Nat) :
    List.range' c n ++ [c + n] = List.range' c (n + 1) := by
  rw [Nat.add_comm n 1, ← List.range'_append_1 c n 1]
  simp

/-- Core inductive invariant: the outstanding tickets are exactly the interval
[curr_, next_), in arrival order, and curr_ ≤ next_. -/
theorem reach_tickets_range (s : TicketSys) (h : Reach s) :
    s.curr_ ≤ s.next_ ∧ s.tickets = List.range' s.curr_ (s.next_ - s.curr_) := by
  induction h with
  | init => exact ⟨Nat.le_refl 0, rfl⟩
  | @lock_enq t _ ih =>
      obtain ⟨hle, hts⟩ := ih
      constructor
      · simp only [lock_enqueue]
        omega
      · simp only [lock_enqueue, hts]
        have h2 : t.curr_ + (t.next_ - t.curr_) = t.next_ := by omega
        have h1 : t.next_ + 1 - t.curr_ = (t.next_ - t.curr_) + 1 := by omega
        rw [h1, ← range'_snoc, h2]
  | @try_step t _ ih =>
      obtain ⟨hle, hts⟩ := ih
      by_cases hne : t.next_ = t.curr_
      · have hstep : ticket_try_lock t =
            (true, ⟨t.next_ + 1, t.curr_, t.tickets ++ [t.next_]⟩) := by
          simp [ticket_try_lock, hne]
        rw [hstep]
        dsimp only
        constructor
        · omega
        · simp only [hts]
          have h2 : t.curr_ + (t.next_ - t.curr_) = t.next_ := by omega
          have h1 : t.next_ + 1 - t.curr_ = (t.next_ - t.curr_) + 1 := by omega
          rw [h1, ← range'_snoc, h2]
      · simp [ticket_try_lock, hne, hle, hts]
  | @unlock_step t _ hmem ih =>
      obtain ⟨hle, hts⟩ := ih
      have hlt : t.curr_ < t.next_ := by
        rcases List.mem_range'_1.mp (hts ▸ hmem) with ⟨_, h2⟩
        omega
      constructor
      · simp only [ticket_unlock]
        omega
      · simp only [ticket_unlock, hts]
        have h1 : t.next_ - t.curr_ = (t.next_ - (t.curr_ + 1)) + 1 := by omega
        rw [h1, List.range'_succ, List.erase_cons_head]

/-! ### Recursive ticket lock: fair_mutex.hpp, class recursive_mutex_base

State adds ncount_ (recursion depth) and owner_ (owning thread id, none when
unowned, mirroring std::thread::id()). Thread ids are modelled as naturals. -/

/-- State of recursive_mutex_base. owner_ = none models
owner_ == std::thread::id() (no owner). -/
structure RecMutex where
  next_ : Nat
  curr_ : Nat
  ncount_ : Nat
  owner_ : Option Nat
deriving DecidableEq

/-- The reentrant fast path shared by recursive_mutex_base::lock() and
try_lock(): if owner_ == tid then ++ncount_ and return immediately;
otherwise (none) fall through to the ticket path. -/
def recursive_lock_fast (tid : Nat) (s : RecMutex) : Option RecMutex :=
  if s.owner_ = some tid then
    some { s with ncount_ := s.ncount_ + 1 }
  else
    none

/-- The ticket-capture step of recursive_mutex_base::lock() on the
non-reentrant path: request = next_++ (the caller then waits until
curr_ == request). Returns the captured ticket and the new state. -/
def recursive_lock_enqueue (s : RecMutex) : Nat × RecMutex :=
  (s.next_, { s with next_ := s.next_ + 1 })

/-- The admission epilogue of recursive_mutex_base::lock(), run once the wait
loop has exited (curr_ == request): ncount_ = 1; owner_ = tid. -/
def recursive_lock_grant (tid : Nat) (s : RecMutex) : RecMutex :=
  { s with ncount_ := 1, owner_ := some tid }

/-- recursive_mutex_base::try_lock(): reentrant fast path, else fail when
next_ != curr_, else ++next_; ncount_ = 1; owner_ = tid; return true. -/
def recursive_try_lock (tid : Nat) (s : RecMutex) : Bool × RecMutex :=
  if s.owner_ = some tid then
    (true, { s with ncount_ := s.ncount_ + 1 })
  else if s.next_ ≠ s.curr_ then
    (false, s)
  else
    (true, { s with next_ := s.next_ + 1, ncount_ := 1, owner_ := some tid })

/-- recursive_mutex_base::unlock(): if --ncount_ == 0 then ++curr_;
owner_ = thread::id(); notify_all. (The assert 0 < ncount_ is the usage
contract; theorems about this definition hypothesise it.) -/
def recursive_unlock (s : RecMutex) : RecMutex :=
  if s.ncount_ - 1 = 0 then
    { s with ncount_ := 0, curr_ := s.curr_ + 1, owner_ := none }
  else
    { s with ncount_ := s.ncount_ - 1 }

/-! ### Timed ticket lock: fair_mutex.hpp, timed_mutex::do_try_lockwait

The loop reads the shared counters while other threads may mutate them between
wakeups, so the function is parametrised by the observation trace: the list of
(shared state, was-this-wakeup-a-timeout) pairs seen at successive returns of
cv_.wait_until. The result is the return value paired with the shared state as
it stands when the call returns; none means the trace ran out while still
waiting. -/

/-- The ++next_ performed when do_try_lockwait succeeds. -/
def bumpNext (s : MutexBase) : MutexBase :=
  { s with next_ := s.next_ + 1 }

/-- The wait loop of timed_mutex::do_try_lockwait, after request = next_ has
been captured: while (request != curr_) { wait_until; on timeout: re-check the
predicate and break if it now holds, else return false }; on exit ++next_ and
return true. -/
def lockwaitLoop (request : Nat) : MutexBase → List (MutexBase × Bool) → Option (Bool × MutexBase)
  | cur, obs =>
    if request = cur.curr_ then
      some (true, bumpNext cur)
    else
      match obs with
      | [] => none
      | (s, tmo) :: rest =>
        if tmo then
          if request = s.curr_ then some (true, bumpNext s)
          else some (false, s)
        else
          lockwaitLoop request s rest

/-- timed_mutex::do_try_lockwait: capture request = next_ (without
incrementing it) and run the wait loop. -/
def do_try_lockwait (entry : MutexBase) (obs : List (MutexBase × Bool)) :
    Option (Bool × MutexBase) :=
  lockwaitLoop entry.next_ entry obs

/-! ### Fair reader/writer engine: fair_shared_mutex.hpp, shared_mutex_base

The wait queue is a circular doubly linked list; we model it as a Lean list,
front (queue_.next) first, back (queue_.prev) last. Each node carries the
status bitmask of the source: bit 0 = 1 for shared-lock (0 exclusive), bit 1 =
1 for lockable (admitted, 0 waiting), bits 2.. = number of locking threads
(locked_ node only). Nodes are identified by nid; nid 0 is the locked_
placeholder node, caller request nodes use nid ≥ 1. -/

/-- One wait-queue node: identity plus the status bitmask of the source. -/
structure WqNode where
  nid : Nat
  status : Nat
deriving DecidableEq

/-- node_status_mask = 3. -/
def node_status_mask : Nat := 3

/-- node_nthread_inc = 1 << 2. -/
def node_nthread_inc : Nat := 4

/-- status & node_status_mask, the mode/admission part of a status. -/
def smask (st : Nat) : Nat := st &&& node_status_mask

/-- The engine state: the wait queue (locked_ included when linked). -/
structure RWState where
  queue : List WqNode
deriving DecidableEq

/-- wq_empty(): queue_.next == &queue_. -/
def wq_empty (q : List WqNode) : Bool := q.isEmpty

/-- wq_push_back(p): link p at the back. -/
def wq_push_back (p : WqNode) (q : List WqNode) : List WqNode := q ++ [p]

/-- wq_erase(p): unlink node p (found by identity). -/
def wq_erase (rid : Nat) (q : List WqNode) : List WqNode :=
  q.eraseP (fun m => m.nid == rid)

/-- wq_shared_lockable(): wq_empty() || (queue_.prev->status & mask) == 3. -/
def wq_shared_lockable (q : List WqNode) : Bool :=
  match q.getLast? with
  | none => true
  | some m => smask m.status == 3

/-- wq_push_locknode(mode): if the front is not locked_, set
locked_.status = mode | 2 and push locked_ at the front; then
locked_.status += node_nthread_inc. -/
def wq_push_locknode (mode : Nat) (s : RWState) : RWState :=
  match s.queue with
  | [] => { queue := [⟨0, (mode ||| 2) + node_nthread_inc⟩] }
  | m :: rest =>
      if m.nid = 0 then
        { queue := ⟨0, m.status + node_nthread_inc⟩ :: rest }
      else
        { queue := ⟨0, (mode ||| 2) + node_nthread_inc⟩ :: m :: rest }

/-- The TaskFairness marking loop of impl_unlock (also reused verbatim by the
exclusive-timeout path): starting at the given position, p->status |= 2 while
(p->status & mask) == 1, stopping at the first node that is not a waiting
shared node. -/
def task_pass : List WqNode → List WqNode
  | [] => []
  | m :: rest =>
      if smask m.status = 1 then ⟨m.nid, m.status ||| 2⟩ :: task_pass rest
      else m :: rest

/-- The PhaseFairness sentinel loop of impl_unlock, as the pair of node lists
it produces: nodes with (status & mask) == 0 are erased and re-pushed at the
back (behind the sentinel, in visit order); every other visited node gets
status |= 2 and keeps its position. -/
def phase_split : List WqNode → List WqNode × List WqNode
  | [] => ([], [])
  | m :: rest =>
      let p := phase_split rest
      if smask m.status = 0 then (p.1, m :: p.2)
      else (⟨m.nid, m.status ||| 2⟩ :: p.1, p.2)

/-- The queue produced by the PhaseFairness sentinel loop once the sentinel is
erased: the marked non-exclusive nodes in place, then the relocated exclusive
nodes. -/
def phase_pass (q : List WqNode) : List WqNode :=
  (phase_split q).1 ++ (phase_split q).2

/-- The promotion logic of impl_unlock after wq_pop_locknode, on a non-empty
queue: PhaseFairness runs the sentinel loop only when the new front is a
waiting shared node ((status & mask) == 1); TaskFairness runs the marking
loop from the front. -/
def promote (phased : Bool) (q : List WqNode) : List WqNode :=
  if phased then
    match q with
    | [] => []
    | m :: _ => if smask m.status = 1 then phase_pass q else q
  else
    task_pass q

/-- impl_unlock(): wq_pop_locknode (the front is asserted to be locked_),
then, if the queue is not empty, run the fairness promotion. -/
def impl_unlock (phased : Bool) (s : RWState) : RWState :=
  let q := wq_erase 0 s.queue
  if wq_empty q then { queue := q } else { queue := promote phased q }

/-- impl_try_lock(): fail if the queue is non-empty, else admit exclusively. -/
def impl_try_lock (s : RWState) : Bool × RWState :=
  if !wq_empty s.queue then (false, s)
  else (true, wq_push_locknode 0 s)

/-- impl_try_lock_shared(): fail if not wq_shared_lockable, else fold into the
shared holder. -/
def impl_try_lock_shared (s : RWState) : Bool × RWState :=
  if !wq_shared_lockable s.queue then (false, s)
  else (true, wq_push_locknode 1 s)

/-- The enqueue step of impl_lock's slow path: node request = {0, 0, 0}
(exclusive, waiting) pushed at the back. -/
def impl_lock_enqueue (rid : Nat) (s : RWState) : RWState :=
  { queue := wq_push_back ⟨rid, 0⟩ s.queue }

/-- The wait predicate of impl_lock's loop: queue_.next == &request, i.e. the
caller's node is the front of the queue. -/
def impl_lock_wait_done (rid : Nat) (s : RWState) : Bool :=
  match s.queue with
  | m :: _ => m.nid == rid
  | [] => false

/-- The epilogue of impl_lock once the wait predicate holds: wq_erase(&request)
then wq_push_locknode(0). -/
def impl_lock_finish (rid : Nat) (s : RWState) : RWState :=
  wq_push_locknode 0 { queue := wq_erase rid s.queue }

/-- The marking step of the exclusive-timeout path of impl_try_lockwait: if
(request.prev->status & mask) == 3, run the TaskFairness marking loop over the
nodes after request (request.next onwards); otherwise change nothing. -/
def mark_after_timeout (rid : Nat) : List WqNode → List WqNode
  | [] => []
  | [m] => [m]
  | a :: b :: rest =>
      if b.nid = rid then
        if smask a.status = 3 then a :: b :: task_pass rest
        else a :: b :: rest
      else a :: mark_after_timeout rid (b :: rest)

/-- The timeout wakeup of impl_try_lockwait (exclusive timed lock), for the
waiter whose node has identity rid: re-check the predicate (front == request)
and on success erase the node and fold into the holder returning true;
otherwise run the phase-merging marking, erase the node, and return false. -/
def impl_try_lockwait_timeout (rid : Nat) (s : RWState) : Bool × RWState :=
  if impl_lock_wait_done rid s then
    (true, wq_push_locknode 0 { queue := wq_erase rid s.queue })
  else
    (false, { queue := wq_erase rid (mark_after_timeout rid s.queue) })

/-- The timeout wakeup of impl_try_lockwait_shared (shared timed lock), for
the waiter whose node has identity rid: re-check request.status == 3 and on
success erase the node and fold into the shared holder returning true;
otherwise erase the node and return false. (The fallback when the node is not
linked cannot arise: the caller's node is in the queue while it waits.) -/
def impl_try_lockwait_shared_timeout (rid : Nat) (s : RWState) : Bool × RWState :=
  match s.queue.find? (fun m => m.nid == rid) with
  | some req =>
      if req.status = 3 then
        (true, wq_push_locknode 1 { queue := wq_erase rid s.queue })
      else
        (false, { queue := wq_erase rid s.queue })
  | none => (false, s)

/-- status |= 2 applied to a node, as done by both promotion passes. -/
def mark2 (m : WqNode) : WqNode := ⟨m.nid, m.status ||| 2⟩

/-! ### Helper lemmas about the promotion passes and queue operations -/

/-- The PhaseFairness sentinel loop stably partitions the queue: non-exclusive
nodes keep their relative order in front (marked), exclusive nodes keep their
relative order behind. -/
theorem phase_split_eq (q : List WqNode) :
    phase_split q
      = ((q.filter fun m => !(smask m.status == 0)).map mark2,
         q.filter fun m => smask m.status == 0) := by
  induction q with
  | nil => rfl
  | cons m rest ih =>
      by_cases h : smask m.status = 0 <;>
        simp [phase_split, h, ih, mark2]

/-- The TaskFairness marking loop marks exactly the maximal prefix of waiting
shared nodes and leaves the remainder untouched. -/
theorem task_pass_eq (q : List WqNode) :
    task_pass q
      = (q.takeWhile fun m => smask m.status == 1).map mark2
        ++ q.dropWhile fun m => smask m.status == 1 := by
  induction q with
  | nil => rfl
  | cons m rest ih =>
      by_cases h : smask m.status = 1 <;>
        simp [task_pass, h, ih, mark2, List.takeWhile_cons, List.dropWhile_cons]

/-- task_pass preserves node identities in order. -/
theorem task_pass_nids (q : List WqNode) :
    (task_pass q).map WqNode.nid = q.map WqNode.nid := by
  induction q with
  | nil => rfl
  | cons m rest ih =>
      by_cases h : smask m.status = 1 <;> simp [task_pass, h, ih]

/-- Erasing by identity skips a prefix that does not carry the identity. -/
theorem wq_erase_append (rid : Nat) (pre post : List WqNode) (req : WqNode)
    (hpre : ∀ x ∈ pre, x.nid ≠ rid) (hrid : req.nid = rid) :
    wq_erase rid (pre ++ req :: post) = pre ++ post := by
  induction pre with
  | nil =>
      simp [wq_erase, List.eraseP_cons, hrid]
  | cons a pre ih =>
      have ha : (a.nid == rid) = false := by
        simp [hpre a (List.mem_cons_self a pre)]
      have ih' := ih (fun x hx => hpre x (List.mem_cons_of_mem a hx))
      simp only [wq_erase, List.cons_append, List.eraseP_cons, ha] at ih' ⊢
      simp [ih']

/-- find? by identity skips a prefix that does not carry the identity. -/
theorem wq_find_append (rid : Nat) (pre post : List WqNode) (req : WqNode)
    (hpre : ∀ x ∈ pre, x.nid ≠ rid) (hrid : req.nid = rid) :
    (pre ++ req :: post).find? (fun m => m.nid == rid) = some req := by
  induction pre with
  | nil => simp [List.find?_cons, hrid]
  | cons a pre ih =>
      have ha : (a.nid == rid) = false := by
        simp [hpre a (List.mem_cons_self a pre)]
      have ih' := ih (fun x hx => hpre x (List.mem_cons_of_mem a hx))
      simp [List.find?_cons, ha, ih']

/-- Claim C2: after an exclusive unlock() under PhaseFairness leaves a
non-empty queue: if the new head is a waiting Shared node, every Shared node
anywhere in the queue is marked admitted and relocated to the front (relative
order preserved) and every Exclusive node is relocated to the back (relative
order preserved); if the new head is an Exclusive node, nothing changes. The
queue is the holder node (nid 0) followed by the waiters, all of which are in
a waiting state (status 0 = exclusive waiting, 1 = shared waiting). -/
theorem claim_C2_theorem (s : RWState) (lk m : WqNode) (q : List WqNode)
    (hq : s.queue = lk :: m :: q) (hlk : lk.nid = 0)
    (hw : ∀ x ∈ m :: q, x.status = 0 ∨ x.status = 1) :
    (m.status = 1 →
      (impl_unlock true s).queue
        = ((m :: q).filter (fun x => !(smask x.status == 0))).map mark2
          ++ (m :: q).filter (fun x => smask x.status == 0)
      ∧ ∀ x ∈ ((m :: q).filter (fun x => !(smask x.status == 0))).map mark2,
          x.status = 3)
    ∧ (m.status = 0 → (impl_unlock true s).queue = m :: q) := by
  have herase : wq_erase 0 s.queue = m :: q := by
    rw [hq]
    simp [wq_erase, List.eraseP_cons, hlk]
  constructor
  · intro hm
    constructor
    · have : impl_unlock true s = { queue := phase_pass (m :: q) } := by
        simp [impl_unlock, herase, wq_empty, promote, hm, smask, node_status_mask]
      rw [this]
      simp [phase_pass, phase_split_eq]
    · intro x hx
      rcases List.mem_map.mp hx with ⟨y, hy, hxy⟩
      rcases List.mem_filter.mp hy with ⟨hymem, hypred⟩
      rcases hw y hymem with h0 | h1
      · exfalso
        simp [smask, node_status_mask, h0] at hypred
      · rw [← hxy]
        simp [mark2, h1]
  · intro hm
    have : impl_unlock true s = { queue := m :: q } := by
      simp [impl_unlock, herase, wq_empty, promote, hm, smask, node_status_mask]
    rw [this]

/-- Claim C3: after an exclusive unlock() under TaskFairness leaves the queue
of waiters q, the promotion pass marks admitted exactly the maximal contiguous
prefix of waiting Shared nodes of q (stopping at the first Exclusive node or
the end); everything from the first Exclusive node on is untouched, and no
node is reordered or removed. -/
theorem claim_C3_theorem (s : RWState) (lk : WqNode) (q : List WqNode)
    (hq : s.queue = lk :: q) (hlk : lk.nid = 0)
    (hw : ∀ x ∈ q, x.status = 0 ∨ x.status = 1) :
    (impl_unlock false s).queue
      = (q.takeWhile fun x => smask x.status == 1).map mark2
        ++ q.dropWhile (fun x => smask x.status == 1)
    ∧ (∀ x ∈ (q.takeWhile fun x => smask x.status == 1).map mark2, x.status = 3)
    ∧ (impl_unlock false s).queue.map WqNode.nid = q.map WqNode.nid := by
  have herase : wq_erase 0 s.queue = q := by
    rw [hq]
    simp [wq_erase, List.eraseP_cons, hlk]
  have hres : (impl_unlock false s).queue = task_pass q := by
    cases hq' : q with
    | nil => simp [impl_unlock, herase, wq_empty, promote, hq', task_pass]
    | cons a l => simp [impl_unlock, herase, wq_empty, promote, hq', task_pass]
  refine ⟨?_, ?_, ?_⟩
  · rw [hres, task_pass_eq]
  · intro x hx
    rcases List.mem_map.mp hx with ⟨y, hy, hxy⟩
    have hymem : y ∈ q := List.takeWhile_subset _ hy
    have hypred := List.mem_takeWhile_imp hy
    rcases hw y hymem with h0 | h1
    · exfalso
      simp [smask, node_status_mask, h0] at hypred
    · rw [← hxy]
      simp [mark2, h1]
  · rw [hres, task_pass_nids]

/-- Witness for C2: concrete queue [holder(E), S, E, S]; on PhaseFairness
unlock both shared nodes are admitted and moved to the front, the exclusive
node to the back. -/
theorem claim_C2_witness :
    (impl_unlock true ⟨[⟨0, 6⟩, ⟨1, 1⟩, ⟨2, 0⟩, ⟨3, 1⟩]⟩).queue
      = [⟨1, 3⟩, ⟨3, 3⟩, ⟨2, 0⟩] := by
  have h := (claim_C2_theorem ⟨[⟨0, 6⟩, ⟨1, 1⟩, ⟨2, 0⟩, ⟨3, 1⟩]⟩ ⟨0, 6⟩ ⟨1, 1⟩
      [⟨2, 0⟩, ⟨3, 1⟩] rfl rfl (by decide)).1 rfl
  rw [h.1]
  decide

/-- Witness for C3: concrete queue [holder(E), S, S, E, S]; on TaskFairness
unlock exactly the first two shared nodes are admitted, in place. -/
theorem claim_C3_witness :
    (impl_unlock false ⟨[⟨0, 6⟩, ⟨1, 1⟩, ⟨2, 1⟩, ⟨3, 0⟩, ⟨4, 1⟩]⟩).queue
      = [⟨1, 3⟩, ⟨2, 3⟩, ⟨3, 0⟩, ⟨4, 1⟩] := by
  have h := claim_C3_theorem ⟨[⟨0, 6⟩, ⟨1, 1⟩, ⟨2, 1⟩, ⟨3, 0⟩, ⟨4, 1⟩]⟩ ⟨0, 6⟩
      [⟨1, 1⟩, ⟨2, 1⟩, ⟨3, 0⟩, ⟨4, 1⟩] rfl rfl (by decide)
  rw [h.1]
  decide

/-- Claim C4: impl_try_lock succeeds iff the queue is empty; impl_try_lock_shared
succeeds iff the queue is empty or its tail is an admitted shared node; on
success the caller is folded into the holder node of the corresponding mode
(fresh holder status 6 = exclusive/count 1, 7 = shared/count 1, or count bump
+4 on an existing shared holder); on failure the state is unchanged. -/
theorem claim_C4_theorem :
    (∀ s : RWState, (impl_try_lock s).1 = true ↔ s.queue = [])
    ∧ (∀ s : RWState, s.queue = [] → impl_try_lock s = (true, ⟨[⟨0, 6⟩]⟩))
    ∧ (∀ s : RWState, (impl_try_lock s).1 = false → (impl_try_lock s).2 = s)
    ∧ (∀ s : RWState, (impl_try_lock_shared s).1 = true ↔
        (s.queue = [] ∨ ∃ m, s.queue.getLast? = some m ∧ smask m.status = 3))
    ∧ (∀ s : RWState, s.queue = [] → impl_try_lock_shared s = (true, ⟨[⟨0, 7⟩]⟩))
    ∧ (∀ (s : RWState) (m : WqNode) (rest : List WqNode),
        s.queue = m :: rest → m.nid = 0 → wq_shared_lockable s.queue = true →
        impl_try_lock_shared s = (true, ⟨⟨0, m.status + node_nthread_inc⟩ :: rest⟩))
    ∧ (∀ (s : RWState) (m : WqNode) (rest : List WqNode),
        s.queue = m :: rest → m.nid ≠ 0 → wq_shared_lockable s.queue = true →
        impl_try_lock_shared s = (true, ⟨⟨0, 7⟩ :: m :: rest⟩))
    ∧ (∀ s : RWState, (impl_try_lock_shared s).1 = false →
        (impl_try_lock_shared s).2 = s) := by
  refine ⟨?_, ?_, ?_, ?_, ?_, ?_, ?_, ?_⟩
  · intro s
    cases hq : s.queue with
    | nil => simp [impl_try_lock, wq_empty, hq]
    | cons a l => simp [impl_try_lock, wq_empty, hq]
  · intro s hq
    cases s
    subst hq
    decide
  · intro s
    by_cases he : wq_empty s.queue = true <;> simp [impl_try_lock, he]
  · intro s
    rcases List.eq_nil_or_concat s.queue with hq | ⟨l, a, hq⟩
    · simp [impl_try_lock_shared, wq_shared_lockable, hq]
    · rw [hq]
      by_cases h3 : smask a.status = 3
      · simp [impl_try_lock_shared, wq_shared_lockable, hq, List.getLast?_concat, h3]
      · simp [impl_try_lock_shared, wq_shared_lockable, hq, List.getLast?_concat, h3]
  · intro s hq
    cases s
    subst hq
    decide
  · intro s m rest hq hm hlck
    cases s
    subst hq
    simp only at hlck
    simp [impl_try_lock_shared, hlck, wq_push_locknode, hm]
  · intro s m rest hq hm hlck
    cases s
    subst hq
    simp only at hlck
    simp [impl_try_lock_shared, hlck, wq_push_locknode, hm, node_nthread_inc]
  · intro s
    by_cases hl : wq_shared_lockable s.queue = true <;> simp [impl_try_lock_shared, hl]

/-- Witness for C4: the shared-tail case — queue holding a shared holder with
count 1 (status 7): try_lock fails and leaves the state unchanged,
try_lock_shared succeeds and bumps the holder count to 2 (status 11). -/
theorem claim_C4_witness :
    ((impl_try_lock ⟨[⟨0, 7⟩]⟩).1 = true ↔ ([⟨0, 7⟩] : List WqNode) = [])
    ∧ impl_try_lock_shared ⟨[⟨0, 7⟩]⟩ = (true, ⟨[⟨0, 11⟩]⟩) := by
  constructor
  · exact (claim_C4_theorem.1 ⟨[⟨0, 7⟩]⟩)
  · have h := claim_C4_theorem.2.2.2.2.2.1 ⟨[⟨0, 7⟩]⟩ ⟨0, 7⟩ [] rfl rfl (by decide)
    simpa using h

/-- Claim C5: invariants of the ticket lock over all reachable states:
issued ≥ served; the lock is free (no outstanding acquisition) iff
issued == served; every outstanding ticket t satisfies served ≤ t ≤ issued;
and a waiter holding ticket t passes the admission test exactly when
served == t. -/
theorem claim_C5_theorem (s : TicketSys) (h : Reach s) :
    s.curr_ ≤ s.next_
    ∧ (s.tickets = [] ↔ s.next_ = s.curr_)
    ∧ (∀ t ∈ s.tickets, s.curr_ ≤ t ∧ t ≤ s.next_)
    ∧ (∀ t ∈ s.tickets, (waitAdmitted s t = true ↔ s.curr_ = t)) := by
  obtain ⟨hle, hts⟩ := reach_tickets_range s h
  refine ⟨hle, ?_, ?_, ?_⟩
  · rw [hts]
    rw [List.range'_eq_nil]
    omega
  · intro t ht
    rw [hts] at ht
    rcases List.mem_range'_1.mp ht with ⟨h1, h2⟩
    exact ⟨h1, by omega⟩
  · intro t _
    simp only [waitAdmitted, beq_iff_eq]
    exact eq_comm

/-- Witness for C5: the state after one lock() enqueue from the initial state
is reachable and satisfies the invariants. -/
theorem claim_C5_witness :
    ((⟨1, 0, [0]⟩ : TicketSys).tickets = []
        ↔ (⟨1, 0, [0]⟩ : TicketSys).next_ = (⟨1, 0, [0]⟩ : TicketSys).curr_)
    ∧ ∀ t ∈ (⟨1, 0, [0]⟩ : TicketSys).tickets,
        (waitAdmitted ⟨1, 0, [0]⟩ t = true ↔ (⟨1, 0, [0]⟩ : TicketSys).curr_ = t) := by
  have hr : Reach ⟨1, 0, [0]⟩ := Reach.lock_enq Reach.init
  have h := claim_C5_theorem ⟨1, 0, [0]⟩ hr
  exact ⟨h.2.1, h.2.2.2⟩

/-- Helper for C6: when the wait loop of do_try_lockwait returns false, it does
so at the first timeout observation, returning the shared state exactly as the
environment left it — the call performs no write on the failure path. -/
theorem lockwaitLoop_false (request : Nat) :
    ∀ (obs : List (MutexBase × Bool)) (cur s' : MutexBase),
      lockwaitLoop request cur obs = some (false, s') →
      ∃ pre rest, obs = pre ++ (s', true) :: rest ∧ ∀ p ∈ pre, p.2 = false := by
  intro obs
  induction obs with
  | nil =>
      intro cur s' h
      by_cases hc : request = cur.curr_ <;> simp [lockwaitLoop, hc] at h
  | cons p rest ih =>
      intro cur s' h
      obtain ⟨ps, tmo⟩ := p
      by_cases hc : request = cur.curr_
      · simp [lockwaitLoop, hc] at h
      · cases tmo with
        | true =>
            by_cases hcs : request = ps.curr_
            · simp [lockwaitLoop, hc, hcs] at h
              split at h <;> simp at h
            · simp only [lockwaitLoop, hc, hcs, if_false, if_true, ite_false,
                ite_true, Option.some.injEq, Prod.mk.injEq] at h
              refine ⟨[], rest, ?_, by simp⟩
              simp [h.2]
        | false =>
            have h' : lockwaitLoop request ps rest = some (false, s') := by
              simpa [lockwaitLoop, hc] using h
            rcases ih ps s' h' with ⟨pre', rest', heq, hall⟩
            refine ⟨(ps, false) :: pre', rest', by simp [heq], ?_⟩
            intro x hx
            rcases List.mem_cons.mp hx with hx0 | hx1
            · rw [hx0]
            · exact hall x hx1

/-- Claim C6: a timed ticket-lock acquisition that returns false leaves the
counters exactly as the environment left them — the failing call performs no
write, because the ticket (request = next_) is captured without incrementing
next_ and ++next_ happens only on the success path. First conjunct: any false
return happens at the first timeout wakeup and returns that observed shared
state unmodified. Second conjunct: with no interfering threads (the lock stays
held, state s unchanged), the call returns false with state exactly s, so a
subsequent lock()/unlock() cycle starts from the very state it would have
started from had the call never been made. -/
theorem claim_C6_theorem :
    (∀ (entry s' : MutexBase) (obs : List (MutexBase × Bool)),
        do_try_lockwait entry obs = some (false, s') →
        ∃ pre rest, obs = pre ++ (s', true) :: rest ∧ ∀ p ∈ pre, p.2 = false)
    ∧ (∀ s : MutexBase, s.next_ ≠ s.curr_ →
        do_try_lockwait s [(s, true)] = some (false, s)) := by
  constructor
  · intro entry s' obs h
    exact lockwaitLoop_false entry.next_ obs entry s' h
  · intro s hne
    simp [do_try_lockwait, lockwaitLoop, hne]

/-- Witness for C6: a held lock (issued 1, served 0); a timed exclusive
attempt that times out returns false and the counters are untouched. -/
theorem claim_C6_witness :
    do_try_lockwait ⟨1, 0⟩ [(⟨1, 0⟩, true)] = some (false, ⟨1, 0⟩) :=
  claim_C6_theorem.2 ⟨1, 0⟩ (by decide)

/-- Claim C7: the recursive ticket lock. Reentry (owner_ == tid): lock() and
try_lock() increment ncount_ and return immediately, leaving next_, curr_ and
owner_ unchanged; first admission sets owner_ = tid and ncount_ = 1; unlock()
decrements ncount_ and only on reaching 0 clears owner_ and advances curr_;
an unlock at depth > 1 changes nothing but ncount_. -/
theorem claim_C7_theorem :
    (∀ (tid : Nat) (s : RecMutex), s.owner_ = some tid →
        recursive_lock_fast tid s = some { s with ncount_ := s.ncount_ + 1 }
        ∧ recursive_try_lock tid s = (true, { s with ncount_ := s.ncount_ + 1 }))
    ∧ (∀ (tid : Nat) (s : RecMutex), s.owner_ ≠ some tid →
        recursive_lock_fast tid s = none
        ∧ (s.next_ = s.curr_ →
            recursive_try_lock tid s
              = (true, { s with next_ := s.next_ + 1, ncount_ := 1, owner_ := some tid }))
        ∧ (s.next_ ≠ s.curr_ → recursive_try_lock tid s = (false, s)))
    ∧ (∀ (tid : Nat) (s : RecMutex),
        (recursive_lock_enqueue s).1 = s.next_
        ∧ (recursive_lock_enqueue s).2 = { s with next_ := s.next_ + 1 }
        ∧ recursive_lock_grant tid (recursive_lock_enqueue s).2
            = { s with next_ := s.next_ + 1, ncount_ := 1, owner_ := some tid })
    ∧ (∀ s : RecMutex, 1 < s.ncount_ →
        recursive_unlock s = { s with ncount_ := s.ncount_ - 1 })
    ∧ (∀ s : RecMutex, s.ncount_ = 1 →
        recursive_unlock s
          = { s with ncount_ := 0, curr_ := s.curr_ + 1, owner_ := none }) := by
  refine ⟨?_, ?_, ?_, ?_, ?_⟩
  · intro tid s hown
    constructor
    · simp [recursive_lock_fast, hown]
    · simp [recursive_try_lock, hown]
  · intro tid s hown
    refine ⟨by simp [recursive_lock_fast, hown], ?_, ?_⟩
    · intro he
      simp [recursive_try_lock, hown, he]
    · intro hne
      simp [recursive_try_lock, hown, hne]
  · intro tid s
    refine ⟨rfl, rfl, ?_⟩
    simp [recursive_lock_grant, recursive_lock_enqueue]
  · intro s hgt
    have hne : ¬(s.ncount_ - 1 = 0) := by omega
    simp [recursive_unlock, hne]
  · intro s h1
    simp [recursive_unlock, h1]

/-- Witness for C7: reentry at state owned by thread 5 at depth 1 bumps the
depth to 2 with counters unchanged; a depth-1 unlock releases, advancing
served. -/
theorem claim_C7_witness :
    recursive_try_lock 5 ⟨1, 0, 1, some 5⟩ = (true, ⟨1, 0, 2, some 5⟩)
    ∧ recursive_unlock ⟨1, 0, 1, some 5⟩ = ⟨1, 1, 0, none⟩ := by
  constructor
  · exact ((claim_C7_theorem.1 5 ⟨1, 0, 1, some 5⟩) rfl).2
  · exact claim_C7_theorem.2.2.2.2 ⟨1, 0, 1, some 5⟩ rfl

/-- Counterexample for C8: the claim says the blocking exclusive lock() waits
until its node has been removed from the queue by a fairness promotion, removal
being the admission signal. In the code the wait predicate is queue_.next ==
&request: the node being at the FRONT of the queue, while still linked.
Concretely: holder [⟨0,6⟩] with exclusive waiter ⟨1,0⟩ enqueued; after the
holder's unlock (TaskFairness, same under PhaseFairness since the head is
Exclusive) the queue is [⟨1,0⟩]: the wait predicate of impl_lock is already
satisfied although the node is still linked — no promotion ever removed it. -/
theorem claim_C8_counterexample :
    impl_unlock false ⟨[⟨0, 6⟩, ⟨1, 0⟩]⟩ = ⟨[⟨1, 0⟩]⟩
    ∧ impl_lock_wait_done 1 ⟨[⟨1, 0⟩]⟩ = true
    ∧ (⟨1, 0⟩ : WqNode) ∈ (⟨[⟨1, 0⟩]⟩ : RWState).queue := by
  decide

/-- Claim C8 (amended): the slow path of impl_lock links a fresh Exclusive
node with status 0 (waiting, not admitted) at the tail and blocks until that
node is the head of the queue (the wait predicate holds exactly when the
caller's node is the front node, still linked); the caller then unlinks its
own node itself and folds into the holder node with mode Exclusive and
holder count 1 (status 6). -/
theorem claim_C8_theorem :
    (∀ (rid : Nat) (s : RWState),
        impl_lock_enqueue rid s = ⟨s.queue ++ [⟨rid, 0⟩]⟩ ∧ smask 0 = 0)
    ∧ (∀ (rid : Nat) (s : RWState),
        impl_lock_wait_done rid s = true
          ↔ ∃ req rest, s.queue = req :: rest ∧ req.nid = rid)
    ∧ (∀ (rid : Nat) (s : RWState) (req : WqNode) (rest : List WqNode),
        s.queue = req :: rest → req.nid = rid → (∀ x ∈ rest, x.nid ≠ 0) →
        impl_lock_finish rid s = ⟨⟨0, 6⟩ :: rest⟩) := by
  refine ⟨?_, ?_, ?_⟩
  · intro rid s
    exact ⟨rfl, rfl⟩
  · intro rid s
    cases hq : s.queue with
    | nil => simp [impl_lock_wait_done, hq]
    | cons m rest =>
        simp only [impl_lock_wait_done, hq, beq_iff_eq]
        constructor
        · intro hm
          exact ⟨m, rest, rfl, hm⟩
        · rintro ⟨req, rest', heq, hnid⟩
          injection heq with h1 _
          rw [h1, hnid]
  · intro rid s req rest hq hrid hrest
    have herase : wq_erase rid s.queue = rest := by
      rw [hq]
      simp [wq_erase, List.eraseP_cons, hrid]
    simp only [impl_lock_finish, herase]
    cases rest with
    | nil => simp [wq_push_locknode, node_nthread_inc]
    | cons a l =>
        have ha : a.nid ≠ 0 := hrest a (List.mem_cons_self a l)
        simp [wq_push_locknode, ha, node_nthread_inc]

/-- Witness for C8 (amended): the waiter ⟨1,0⟩ at the head of the queue passes
the wait predicate and the epilogue yields the exclusive holder of count 1. -/
theorem claim_C8_witness :
    impl_lock_wait_done 1 ⟨[⟨1, 0⟩, ⟨2, 1⟩]⟩ = true
    ∧ impl_lock_finish 1 ⟨[⟨1, 0⟩, ⟨2, 1⟩]⟩ = ⟨[⟨0, 6⟩, ⟨2, 1⟩]⟩ := by
  constructor
  · exact (claim_C8_theorem.2.1 1 ⟨[⟨1, 0⟩, ⟨2, 1⟩]⟩).mpr ⟨⟨1, 0⟩, [⟨2, 1⟩], rfl, rfl⟩
  · exact claim_C8_theorem.2.2 1 ⟨[⟨1, 0⟩, ⟨2, 1⟩]⟩ ⟨1, 0⟩ [⟨2, 1⟩] rfl rfl (by decide)

/-- Claim C9: FIFO order of exclusive acquisitions. Ticket lock: in every
reachable state the outstanding tickets, listed in arrival order, are strictly
increasing, and a waiter passes the admission test exactly when its ticket is
the front (earliest-arrived) outstanding ticket — so grants occur in enqueue
order. Fair RW engine: the exclusive wait predicate of impl_lock holds exactly
for the node at the front of the FIFO queue (and impl_lock_enqueue appends at
the tail), so exclusive admissions follow arrival order as well. -/
theorem claim_C9_theorem :
    (∀ s : TicketSys, Reach s →
        s.tickets.Pairwise (· < ·)
        ∧ ∀ t ∈ s.tickets, (waitAdmitted s t = true ↔ s.tickets.head? = some t))
    ∧ (∀ (rid : Nat) (s : RWState),
        (impl_lock_enqueue rid s).queue = s.queue ++ [⟨rid, 0⟩]
        ∧ (impl_lock_wait_done rid s = true
            ↔ ∃ req rest, s.queue = req :: rest ∧ req.nid = rid)) := by
  constructor
  · intro s hs
    obtain ⟨hle, hts⟩ := reach_tickets_range s hs
    constructor
    · rw [hts]
      exact List.pairwise_lt_range' s.curr_ (s.next_ - s.curr_) 1
    · intro t ht
      rw [hts] at ht
      rcases List.mem_range'_1.mp ht with ⟨h1, h2⟩
      have hn : s.next_ - s.curr_ = (s.next_ - s.curr_ - 1) + 1 := by omega
      have hhead : s.tickets.head? = some s.curr_ := by
        rw [hts, hn, List.range'_succ]
        rfl
      rw [hhead]
      simp only [waitAdmitted, beq_iff_eq, Option.some.injEq]
      constructor
      · intro he
        exact he.symm
      · intro he
        exact he.symm
  · intro rid s
    constructor
    · rfl
    · cases hq : s.queue with
      | nil => simp [impl_lock_wait_done, hq]
      | cons m rest =>
          simp only [impl_lock_wait_done, hq, beq_iff_eq]
          constructor
          · intro hm
            exact ⟨m, rest, rfl, hm⟩
          · rintro ⟨req, rest', heq, hnid⟩
            injection heq with h1 _
            rw [h1, hnid]

/-- Witness for C9: two waiters enqueued in order hold tickets [0, 1]; only
ticket 0 (the first arrival) passes the admission test; and in the RW engine
with queue [⟨1,0⟩, ⟨2,0⟩] only the first-arrived node 1 passes the exclusive
wait predicate. -/
theorem claim_C9_witness :
    (⟨2, 0, [0, 1]⟩ : TicketSys).tickets.Pairwise (· < ·)
    ∧ (waitAdmitted ⟨2, 0, [0, 1]⟩ 0 = true ↔ ([0, 1] : List Nat).head? = some 0)
    ∧ (impl_lock_wait_done 2 ⟨[⟨1, 0⟩, ⟨2, 0⟩]⟩ = true
        ↔ ∃ req rest, ([⟨1, 0⟩, ⟨2, 0⟩] : List WqNode) = req :: rest ∧ req.nid = 2) := by
  have hr : Reach ⟨2, 0, [0, 1]⟩ :=
    Reach.lock_enq (Reach.lock_enq Reach.init)
  have h1 := claim_C9_theorem.1 ⟨2, 0, [0, 1]⟩ hr
  have h2 := (claim_C9_theorem.2 2 ⟨[⟨1, 0⟩, ⟨2, 0⟩]⟩).2
  exact ⟨h1.1, h1.2 0 (by decide), h2⟩

/-- Claim C10: the shared-timeout path — a shared waiter whose node times out
while still waiting (status ≠ 3) unlinks exactly its own node and returns
false; every remaining node (the prefix before it and the suffix after it,
holder included) is kept literally unchanged and in order, and no promotion
pass runs. -/
theorem claim_C10_theorem (rid : Nat) (s : RWState) (pre post : List WqNode)
    (req : WqNode) (hq : s.queue = pre ++ req :: post) (hrid : req.nid = rid)
    (hpre : ∀ x ∈ pre, x.nid ≠ rid) (hst : req.status ≠ 3) :
    impl_try_lockwait_shared_timeout rid s = (false, ⟨pre ++ post⟩)
    ∧ ∀ x ∈ pre ++ post, x ∈ s.queue := by
  have hfind : s.queue.find? (fun m => m.nid == rid) = some req := by
    rw [hq]
    exact wq_find_append rid pre post req hpre hrid
  have herase : wq_erase rid s.queue = pre ++ post := by
    rw [hq]
    exact wq_erase_append rid pre post req hpre hrid
  constructor
  · simp [impl_try_lockwait_shared_timeout, hfind, hst, herase]
  · intro x hx
    rw [hq]
    rcases List.mem_append.mp hx with h | h
    · exact List.mem_append.mpr (Or.inl h)
    · exact List.mem_append.mpr (Or.inr (List.mem_cons_of_mem req h))

/-- Witness for C10: holder ⟨0,6⟩ with waiters [E ⟨1,0⟩, S ⟨2,1⟩, S ⟨3,1⟩];
the shared waiter 2 times out: only its node disappears. -/
theorem claim_C10_witness :
    impl_try_lockwait_shared_timeout 2 ⟨[⟨0, 6⟩, ⟨1, 0⟩, ⟨2, 1⟩, ⟨3, 1⟩]⟩
      = (false, ⟨[⟨0, 6⟩, ⟨1, 0⟩, ⟨3, 1⟩]⟩) :=
  (claim_C10_theorem 2 ⟨[⟨0, 6⟩, ⟨1, 0⟩, ⟨2, 1⟩, ⟨3, 1⟩]⟩ [⟨0, 6⟩, ⟨1, 0⟩]
    [⟨3, 1⟩] ⟨2, 1⟩ rfl rfl (by decide) (by decide)).1

/-- Helper for C1: when the timed exclusive waiter req sits right after pn
(an admitted shared node, smask 3) and nothing before it carries its identity,
the timeout marking runs the TaskFairness loop over the nodes after req. -/
theorem mark_after_timeout_eq (rid : Nat) (pn req : WqNode) (post : List WqNode)
    (hrid : req.nid = rid) (hpn : smask pn.status = 3) :
    ∀ pre : List WqNode, (∀ x ∈ pre ++ [pn], x.nid ≠ rid) →
      mark_after_timeout rid (pre ++ pn :: req :: post)
        = pre ++ pn :: req :: task_pass post := by
  intro pre
  induction pre with
  | nil =>
      intro _
      simp [mark_after_timeout, hrid, hpn]
  | cons a pre ih =>
      intro h
      have htail : ∀ x ∈ pre ++ [pn], x.nid ≠ rid :=
        fun x hx => h x (List.mem_cons_of_mem a hx)
      have hih := ih htail
      rw [List.cons_append]
      cases hp : pre ++ pn :: req :: post with
      | nil => exact absurd hp (by simp)
      | cons b rest =>
          have hbmem : b ∈ pre ++ [pn] := by
            cases pre with
            | nil =>
                simp only [List.nil_append] at hp
                injection hp with h1 _
                simp [h1]
            | cons c pre' =>
                simp only [List.cons_append] at hp
                injection hp with h1 _
                simp [← h1]
          have hb : b.nid ≠ rid := h b (List.mem_cons_of_mem a hbmem)
          have hred : mark_after_timeout rid (a :: b :: rest)
              = a :: mark_after_timeout rid (b :: rest) := by
            simp [mark_after_timeout, hb]
          rw [hred, ← hp, hih]
          simp

/-- Counterexample for C1 under PhaseFairness. Queue: shared holder ⟨0,7⟩,
timed exclusive waiter ⟨1,0⟩, then waiters S ⟨2,1⟩, E ⟨3,0⟩, S ⟨4,1⟩. At the
waiter's timeout the code marks only the contiguous shared group after the
removed node (node 2) and performs no relocation: node 4 keeps status 1 behind
exclusive node 3 (first conjunct). The PhaseFairness promotion the claim
describes (second conjunct: the sentinel loop over the waiters) would admit
node 4 too and relocate it in front of node 3, a different queue (third
conjunct). Even literally re-running unlock()'s configured promotion on the
resulting queue marks nothing at all, since the head is the still-present
holder (fourth conjunct) — in no reading does the timeout path re-run
unlock()'s PhaseFairness logic. -/
theorem claim_C1_counterexample :
    impl_try_lockwait_timeout 1 ⟨[⟨0, 7⟩, ⟨1, 0⟩, ⟨2, 1⟩, ⟨3, 0⟩, ⟨4, 1⟩]⟩
      = (false, ⟨[⟨0, 7⟩, ⟨2, 3⟩, ⟨3, 0⟩, ⟨4, 1⟩]⟩)
    ∧ ⟨0, 7⟩ :: phase_pass [⟨2, 1⟩, ⟨3, 0⟩, ⟨4, 1⟩]
        = [⟨0, 7⟩, ⟨2, 3⟩, ⟨4, 3⟩, ⟨3, 0⟩]
    ∧ ([⟨0, 7⟩, ⟨2, 3⟩, ⟨3, 0⟩, ⟨4, 1⟩] : List WqNode)
        ≠ [⟨0, 7⟩, ⟨2, 3⟩, ⟨4, 3⟩, ⟨3, 0⟩]
    ∧ promote true (wq_erase 1 [⟨0, 7⟩, ⟨1, 0⟩, ⟨2, 1⟩, ⟨3, 0⟩, ⟨4, 1⟩])
        = [⟨0, 7⟩, ⟨2, 1⟩, ⟨3, 0⟩, ⟨4, 1⟩] := by
  decide

/-- Claim C1 (amended): when a timed exclusive waiter times out and its
immediate predecessor pn is an admitted shared node (smask 3), the timeout
path removes the waiter's node and — regardless of the configured fairness
policy — marks admitted exactly the maximal contiguous run of waiting Shared
nodes immediately following the removed node, stopping at the first Exclusive
node; it relocates nothing. -/
theorem claim_C1_theorem (rid : Nat) (s : RWState) (pre : List WqNode)
    (pn req : WqNode) (post : List WqNode)
    (hq : s.queue = pre ++ pn :: req :: post) (hrid : req.nid = rid)
    (hpre : ∀ x ∈ pre ++ [pn], x.nid ≠ rid) (hpn : smask pn.status = 3)
    (hw : ∀ x ∈ post, x.status = 0 ∨ x.status = 1) :
    impl_try_lockwait_timeout rid s
      = (false, ⟨pre ++ pn ::
          ((post.takeWhile fun x => smask x.status == 1).map mark2
            ++ post.dropWhile fun x => smask x.status == 1)⟩)
    ∧ (∀ x ∈ (post.takeWhile fun x => smask x.status == 1).map mark2,
        x.status = 3)
    ∧ (pre ++ pn :: task_pass post).map WqNode.nid
        = (pre ++ pn :: post).map WqNode.nid := by
  have hdone : impl_lock_wait_done rid s = false := by
    cases pre with
    | nil =>
        have hpn' : pn.nid ≠ rid := hpre pn (by simp)
        simp only [List.nil_append] at hq
        simp [impl_lock_wait_done, hq, hpn']
    | cons c pre' =>
        have hc : c.nid ≠ rid := hpre c (by simp)
        simp only [List.cons_append] at hq
        simp [impl_lock_wait_done, hq, hc]
  have hmark : mark_after_timeout rid s.queue
      = pre ++ pn :: req :: task_pass post := by
    rw [hq]
    exact mark_after_timeout_eq rid pn req post hrid hpn pre hpre
  have herase : wq_erase rid (pre ++ pn :: req :: task_pass post)
      = pre ++ pn :: task_pass post := by
    have h1 : pre ++ pn :: req :: task_pass post
        = (pre ++ [pn]) ++ req :: task_pass post := by simp
    have h2 : pre ++ pn :: task_pass post
        = (pre ++ [pn]) ++ task_pass post := by simp
    rw [h1, h2]
    exact wq_erase_append rid (pre ++ [pn]) (task_pass post) req hpre hrid
  refine ⟨?_, ?_, ?_⟩
  · have hstep : impl_try_lockwait_timeout rid s
        = (false, ⟨wq_erase rid (mark_after_timeout rid s.queue)⟩) := by
      simp [impl_try_lockwait_timeout, hdone]
    rw [hstep, hmark, herase, task_pass_eq]
  · intro x hx
    rcases List.mem_map.mp hx with ⟨y, hy, hxy⟩
    have hymem : y ∈ post := List.takeWhile_subset _ hy
    have hypred := List.mem_takeWhile_imp hy
    rcases hw y hymem with h0 | h1
    · exfalso
      simp [smask, node_status_mask, h0] at hypred
    · rw [← hxy]
      simp [mark2, h1]
  · simp [task_pass_nids]

/-- Witness for C1 (amended): the concrete PhaseFairness scenario of the
counterexample, settled by the amended theorem: the timeout marks exactly the
shared node directly after the removed waiter. -/
theorem claim_C1_witness :
    impl_try_lockwait_timeout 1 ⟨[⟨0, 7⟩, ⟨1, 0⟩, ⟨2, 1⟩, ⟨3, 0⟩, ⟨4, 1⟩]⟩
      = (false, ⟨[⟨0, 7⟩, ⟨2, 3⟩, ⟨3, 0⟩, ⟨4, 1⟩]⟩)
    ∧ (⟨[⟨0, 7⟩, ⟨2, 3⟩, ⟨3, 0⟩, ⟨4, 1⟩]⟩ : RWState).queue.map WqNode.nid
        = [0, 2, 3, 4] := by
  have h := (claim_C1_theorem 1 ⟨[⟨0, 7⟩, ⟨1, 0⟩, ⟨2, 1⟩, ⟨3, 0⟩, ⟨4, 1⟩]⟩ []
    ⟨0, 7⟩ ⟨1, 0⟩ [⟨2, 1⟩, ⟨3, 0⟩, ⟨4, 1⟩] rfl rfl (by decide) (by decide)
    (by decide)).1
  constructor
  · rw [h]
    decide
  · decide

end Yamc
